import Mathlib

/-!
Verification development for the yahoojp-byline-feed repository.

The repository converts author listing pages of Yahoo!ニュース個人 into RSS
feeds.  The pure core (date parsing, HTML data extraction over an already
parsed DOM tree, feed validation, multi-feed merging, and feed rendering)
is shallowly embedded below.  Python runtime behaviour is made explicit:

* fallible Python code is modelled in the `Except PyError` monad
  (`KeyError` from attribute subscription on a tag, `TypeError` from
  ordering `None` against another value or calling `re.match` on `None`,
  `ValueError` from `datetime` construction, `IndexError` from list
  subscription);
* `None` is `Option.none`; Python truthiness of strings treats the empty
  string like `None`;
* the site-specific regular expressions of `parse.py` are embedded as
  specialised backtracking matchers that follow the Python `re` semantics
  (leftmost search position, greedy and lazy quantifier order, ordered
  alternation) for exactly the patterns appearing in the source;
* `datetime.datetime` values are modelled by their civil fields plus the
  fixed timezone offset in minutes; `tzinfo=gettz(Asia/Tokyo)` is the
  fixed +9 hour offset (540 minutes, no daylight saving) for the modern
  dates this program handles.  Comparison of aware datetimes compares the
  denoted instants, computed via a day-number function.
-/

deriving instance DecidableEq for Except

namespace YahooByline

/-- Python exception classes that the embedded code can raise. -/
inductive PyError where
  | keyError : PyError
  | typeError : PyError
  | valueError : PyError
  | indexError : PyError
deriving DecidableEq, Repr

/-! ## datetime model -/

/-- Model of an aware `datetime.datetime` value: civil fields together with
the fixed utc offset (in minutes) of its `tzinfo`.  All datetimes built by
this program carry the Asia/Tokyo offset of 540 minutes. -/
structure DateTime where
  year : Nat
  month : Nat
  day : Nat
  hour : Nat
  minute : Nat
  tzOffsetMinutes : Int
deriving DecidableEq, Repr

/-- Gregorian leap year test, as used by `datetime`. -/
def isLeap (y : Nat) : Bool :=
  y % 4 == 0 && (y % 100 != 0 || y % 400 == 0)

/-- Length of a month in the proleptic Gregorian calendar of `datetime`. -/
def daysInMonth (y m : Nat) : Nat :=
  if m = 2 then (if isLeap y then 29 else 28)
  else if m = 4 ∨ m = 6 ∨ m = 9 ∨ m = 11 then 30
  else 31

/-- Days in the months strictly before month `m` of a year with leap flag
`leap`. -/
def daysBeforeMonth (m : Nat) (leap : Bool) : Nat :=
  let base :=
    if m ≤ 1 then 0
    else if m = 2 then 31
    else if m = 3 then 59
    else if m = 4 then 90
    else if m = 5 then 120
    else if m = 6 then 151
    else if m = 7 then 181
    else if m = 8 then 212
    else if m = 9 then 243
    else if m = 10 then 273
    else if m = 11 then 304
    else 334
  if leap ∧ 3 ≤ m then base + 1 else base

/-- Proleptic Gregorian day number of a civil date (counting from year 1),
mirroring `datetime.date.toordinal`. -/
def dayNumber (y m d : Nat) : Nat :=
  365 * (y - 1) + ((y - 1) / 4 - (y - 1) / 100 + (y - 1) / 400)
    + daysBeforeMonth m (isLeap y) + d

/-- The instant denoted by an aware datetime, as minutes on the UTC time
line.  Two aware Python datetimes compare by this quantity. -/
def utcMinutes (dt : DateTime) : Int :=
  (dayNumber dt.year dt.month dt.day : Int) * 1440
    + (dt.hour : Int) * 60 + (dt.minute : Int) - dt.tzOffsetMinutes

/-- Instant equality of aware datetimes (Python `==`). -/
def dtEqB (a b : DateTime) : Bool :=
  utcMinutes a == utcMinutes b

/-- Instant ordering of aware datetimes (Python `<`). -/
def dtLtB (a b : DateTime) : Bool :=
  utcMinutes a < utcMinutes b

/-- The fixed Asia/Tokyo offset used throughout: UTC+9, i.e. 540 minutes. -/
def tokyoOffsetMinutes : Int := 540

/-- Model of `datetime.datetime(year, month, day, hour, minute,
tzinfo=TZ_TOKYO)`: range-checks every field exactly as the CPython
constructor and raises `ValueError` on an invalid civil value. -/
def mkDatetime (y mo d h mi : Nat) : Except PyError DateTime :=
  if 1 ≤ y ∧ y ≤ 9999 ∧ 1 ≤ mo ∧ mo ≤ 12 ∧ 1 ≤ d ∧ d ≤ daysInMonth y mo
      ∧ h ≤ 23 ∧ mi ≤ 59 then
    .ok ⟨y, mo, d, h, mi, tokyoOffsetMinutes⟩
  else
    .error .valueError

/-! ## The pubdate regular expression

`parse.py` line 42-44 searches for

  date_regexp = (?:([0-9]{4})/)?([1-9]|1[012])/([123]?[0-9])
  time_regexp = ([0-9]{1,2}):([0-9]{1,2})
  re.search(date_regexp + ".*?" + time_regexp, date_str)

The matcher below is this exact pattern specialised: every quantifier and
alternation is expanded with the backtracking order of Python `re`
(optional group greedy, alternatives left to right, two-digit numerals
before one-digit where the quantifier is greedy, the `.*?` gap lazy and
unable to cross a newline), and the search tries start positions from the
left. -/

/-- Numeric value of a decimal digit character. -/
def dval (c : Char) : Nat := c.toNat - 48

/-- First alternative of a candidate list that lets the continuation
succeed: the backtracking order of ordered alternation. -/
def firstSomeR {α β : Type} : List α → (α → Option β) → Option β
  | [], _ => none
  | a :: as, f =>
    match f a with
    | some b => some b
    | none => firstSomeR as f

/-- Match `([0-9]{1,2})` at the head of the input (greedy, no following
pattern, so two digits win when available): the minutes group. -/
def tryMinute : List Char → Option Nat
  | [] => none
  | [c] => if c.isDigit then some (dval c) else none
  | c1 :: c2 :: _ =>
    if c1.isDigit then
      if c2.isDigit then some (10 * dval c1 + dval c2) else some (dval c1)
    else none

/-- Continuation of the time pattern after a one-digit hour `c1`: the rest
must supply `:` and the minutes. -/
def hour1Cont (c1 : Char) (rest1 : List Char) : Option (Nat × Nat) :=
  match rest1 with
  | ':' :: r => (tryMinute r).map fun m => (dval c1, m)
  | _ => none

/-- Match `([0-9]{1,2}):([0-9]{1,2})` at the head of the input, with the
greedy hour backtracking from two digits to one (an input of fewer than
two characters cannot hold an hour, a colon and a minute). -/
def tryTimeHere : List Char → Option (Nat × Nat)
  | [] => none
  | [_] => none
  | c1 :: c2 :: rest2 =>
    if c1.isDigit then
      if c2.isDigit then
        match rest2 with
        | ':' :: rest3 =>
          match tryMinute rest3 with
          | some m => some (10 * dval c1 + dval c2, m)
          | none => hour1Cont c1 (c2 :: rest2)
        | _ => hour1Cont c1 (c2 :: rest2)
      else hour1Cont c1 (c2 :: rest2)
    else none

/-- The lazy gap `.*?` followed by the time pattern: try the time at the
current position first, then consume one non-newline character and retry
(`.` does not match a newline). -/
def findTime : List Char → Option (Nat × Nat)
  | [] => none
  | s@(c :: rest) =>
    match tryTimeHere s with
    | some hm => some hm
    | none => if c = '\n' then none else findTime rest

/-- The with-year alternative of the greedy optional group
`(?:([0-9]{4})/)?`: four digits and a slash at the head. -/
def yearCand1 : List Char → List (Option Nat × List Char)
  | a :: b :: c :: d :: e :: r =>
    if a.isDigit ∧ b.isDigit ∧ c.isDigit ∧ d.isDigit ∧ e = '/' then
      [(some (((dval a * 10 + dval b) * 10 + dval c) * 10 + dval d), r)]
    else []
  | [_, _, _, _] => []
  | [_, _, _] => []
  | [_, _] => []
  | [_] => []
  | [] => []

/-- Candidates of the greedy optional year group, in backtracking order:
with the year when possible, then without. -/
def yearCands (s : List Char) : List (Option Nat × List Char) :=
  yearCand1 s ++ [(none, s)]

/-- The `[1-9]` alternative of the month group. -/
def monthCand1 : List Char → List (Nat × List Char)
  | [] => []
  | c :: r => if c.isDigit ∧ c ≠ '0' then [(dval c, r)] else []

/-- The `1[012]` alternative of the month group. -/
def monthCand2 : List Char → List (Nat × List Char)
  | c1 :: c2 :: r =>
    if c1 = '1' ∧ (c2 = '0' ∨ c2 = '1' ∨ c2 = '2') then
      [(10 + dval c2, r)]
    else []
  | [_] => []
  | [] => []

/-- Candidates of the month group `([1-9]|1[012])`, in alternation
order. -/
def monthCands (s : List Char) : List (Nat × List Char) :=
  monthCand1 s ++ monthCand2 s

/-- The two-digit alternative of the greedy day group `([123]?[0-9])`. -/
def dayCand2 : List Char → List (Nat × List Char)
  | c1 :: c2 :: r =>
    if (c1 = '1' ∨ c1 = '2' ∨ c1 = '3') ∧ c2.isDigit then
      [(10 * dval c1 + dval c2, r)]
    else []
  | [_] => []
  | [] => []

/-- The one-digit alternative of the day group. -/
def dayCand1 : List Char → List (Nat × List Char)
  | [] => []
  | c :: r => if c.isDigit then [(dval c, r)] else []

/-- Candidates of the day group, greedy: two digits first, then one.
Note that the shape `[123]?[0-9]` admits the days 0 and 32 to 39. -/
def dayCands (s : List Char) : List (Nat × List Char) :=
  dayCand2 s ++ dayCand1 s

/-- The regex groups of a successful match of the pubdate pattern. -/
structure DTG where
  year : Option Nat
  month : Nat
  day : Nat
  hour : Nat
  minute : Nat
deriving DecidableEq, Repr

/-- Match month, slash, day, lazy gap and time at the head of the input. -/
def matchMDT (s1 : List Char) : Option (Nat × Nat × Nat × Nat) :=
  firstSomeR (monthCands s1) fun mc =>
    match mc.2 with
    | '/' :: s3 =>
      firstSomeR (dayCands s3) fun dc =>
        (findTime dc.2).map fun hm => (mc.1, dc.1, hm.1, hm.2)
    | _ => none

/-- Match the full pubdate pattern anchored at the head of the input. -/
def matchDateTimeAt (s : List Char) : Option DTG :=
  firstSomeR (yearCands s) fun yc =>
    (matchMDT yc.2).map fun r => ⟨yc.1, r.1, r.2.1, r.2.2.1, r.2.2.2⟩

/-- `re.search` of the pubdate pattern: try each start position from the
left. -/
def regexSearch : List Char → Option DTG
  | [] => matchDateTimeAt []
  | s@(_ :: rest) =>
    match matchDateTimeAt s with
    | some g => some g
    | none => regexSearch rest

/-- Model of `parse.py` `parse_pubdate(date_str, this_year)`.  The current
year in the Asia/Tokyo calendar (`datetime.now(TZ_TOKYO).year`), which the
source reads from the wall clock when `this_year` is `None`, is passed
explicitly as `nowYear`.  Mirrors `safe_int` on the year group (a group
`0000` becomes the integer 0, which the `if not year` test also replaces)
and the `datetime` construction, whose `ValueError` propagates. -/
def parse_pubdate (dateStr : String) (thisYear : Option Nat) (nowYear : Nat) :
    Except PyError (Option DateTime) :=
  match regexSearch dateStr.data with
  | none => .ok none
  | some g =>
    let y :=
      match g.year with
      | some y0 => if y0 = 0 then thisYear.getD nowYear else y0
      | none => thisYear.getD nowYear
    (mkDatetime y g.month g.day g.hour g.minute).map some

/-! ## The author pattern

`extract_author` runs `re.match("(.+)の記事一覧", title)`.  The greedy
group backtracks from the longest prefix; `.` does not match a newline and
`re.match` anchors at the start of the string only.  A successful group 1
is therefore the longest nonempty newline-free prefix that is immediately
followed by the fixed suffix. -/

/-- The fixed suffix of an article listing page title. -/
def kijiSuffix : List Char := "の記事一覧".data

/-- Backtracking loop of the greedy group: try the prefix of length `i`
first, then shorter ones. -/
def authMatchAux (s : List Char) : Nat → Option (List Char)
  | 0 => none
  | i + 1 =>
    if ¬ (s.take (i + 1)).contains '\n'
        ∧ kijiSuffix.isPrefixOf (s.drop (i + 1)) then
      some (s.take (i + 1))
    else authMatchAux s i

/-- Group 1 of `re.match("(.+)の記事一覧", s)` when the match succeeds. -/
def authMatch (s : List Char) : Option (List Char) :=
  authMatchAux s s.length

/-! ## DOM model

`parse.py` receives a `BeautifulSoup` document built by the external
html5lib markup parser; the embedding starts from the already parsed tree.
Nodes are element tags (name, attributes, children) and text nodes
(`NavigableString`).  Modelling notes, each matching bs4 behaviour:

* `tag[attr]` raises `KeyError` when the attribute is missing;
* a css class matches when it is one of the whitespace separated tokens
  of the `class` attribute;
* `Tag.__bool__` is always `True` (a tag is truthy even when empty), so
  `select1`, which evaluates `results and results[0] or None`, returns
  the first selected tag exactly when the selection is nonempty;
* `tag.strings` yields the text nodes of the subtree in document order;
* `tag.string` is the single text child, recursing through a single
  element child, and `None` otherwise;
* `elem.select(spec)` and `find`/`find_all` return proper descendants in
  document order; a descendant combinator in `spec` requires an ancestor
  chain (within the searched subtree) matching the earlier simple
  selectors. -/

mutual

inductive Node where
  | elem (tag : String) (attrs : List (String × String)) (children : NodeList)
  | tnode (s : String)

inductive NodeList where
  | nil
  | cons (n : Node) (ns : NodeList)

end

deriving instance DecidableEq for Node

/-- Build a child list from an ordinary list, for writing documents. -/
def nodesOf : List Node → NodeList
  | [] => .nil
  | c :: cs => .cons c (nodesOf cs)

/-- Element construction from an ordinary child list. -/
def nel (tag : String) (attrs : List (String × String))
    (children : List Node) : Node :=
  .elem tag attrs (nodesOf children)

/-- First value of an attribute, `None` when absent. -/
def Node.attr? : Node → String → Option String
  | .elem _ attrs _, k => (attrs.find? (fun p => p.1 = k)).map (·.2)
  | .tnode _, _ => none

/-- Model of `tag[k]`: `KeyError` when the attribute is missing. -/
def Node.subscript (n : Node) (k : String) : Except PyError String :=
  match n.attr? k with
  | some v => .ok v
  | none => .error .keyError

/-- Ascii whitespace, for splitting the `class` attribute. -/
def wsChar (c : Char) : Bool :=
  c = ' ' ∨ c = '\t' ∨ c = '\n' ∨ c = '\r'

/-- Split a character list into maximal whitespace-free tokens;
`cur` accumulates the current token reversed. -/
def tokSplit (cur : List Char) : List Char → List (List Char)
  | [] => if cur.isEmpty then [] else [cur.reverse]
  | c :: cs =>
    if wsChar c then
      if cur.isEmpty then tokSplit [] cs else cur.reverse :: tokSplit [] cs
    else tokSplit (c :: cur) cs

/-- The css classes of a node: whitespace separated tokens of the `class`
attribute. -/
def Node.classList (n : Node) : List String :=
  match n.attr? "class" with
  | some v => (tokSplit [] v.data).map List.asString
  | none => []

/-- The tag name, empty for a text node. -/
def Node.tagName : Node → String
  | .elem t _ _ => t
  | .tnode _ => ""

/-- Whether a node is an element tag. -/
def Node.isElem : Node → Bool
  | .elem _ _ _ => true
  | .tnode _ => false

/-- A simple css selector: optional tag name, optional class, optional
attribute equality test.  The selectors of `parse.py` need nothing more. -/
structure SSel where
  tag : Option String := none
  cls : Option String := none
  attrEq : Option (String × String) := none

/-- Whether a node matches a simple selector. -/
def sselMatches (n : Node) (s : SSel) : Bool :=
  n.isElem
    && (match s.tag with | some t => n.tagName == t | none => true)
    && (match s.cls with | some c => n.classList.contains c | none => true)
    && (match s.attrEq with
        | some (k, v) => n.attr? k == some v
        | none => true)

mutual

/-- Proper descendants of a node in document order, each with its chain of
ancestors (innermost first) up to and including the searched root. -/
def descsNode (anc : List Node) : Node → List (List Node × Node)
  | .tnode _ => []
  | .elem t a cs => descsKids (Node.elem t a cs :: anc) cs

/-- Descendant enumeration over a list of siblings. -/
def descsKids (anc : List Node) : NodeList → List (List Node × Node)
  | .nil => []
  | .cons c cs => (anc, c) :: (descsNode anc c ++ descsKids anc cs)

end

/-- Whether an ancestor chain (innermost first) realises a reversed list
of simple selectors, the descendant combinator allowing gaps. -/
def upMatch : List SSel → List Node → Bool
  | [], _ => true
  | _ :: _, [] => false
  | ss@(s :: rest), a :: above =>
    (sselMatches a s && upMatch rest above) || upMatch ss above

/-- `elem.select(spec)` for a descendant chain of simple selectors
(`selsRev` lists them innermost first): matching proper descendants in
document order. -/
def selectAll (root : Node) (selsRev : List SSel) : List Node :=
  match selsRev with
  | [] => []
  | s :: rest =>
    ((descsNode [] root).filter
      (fun p => sselMatches p.2 s && upMatch rest p.1)).map (·.2)

/-- Model of `select1`: `results and results[0] or None`.  An empty result
list is falsy, and a bs4 tag is always truthy, so this is the head of the
selection. -/
def select1 (root : Node) (selsRev : List SSel) : Option Node :=
  (selectAll root selsRev).head?

/-- Model of `soup.find(id=v)`: the first tag in document order carrying
the id. -/
def findById (root : Node) (v : String) : Option Node :=
  ((descsNode [] root).map (·.2)).find?
    (fun n => n.attr? "id" == some v)

/-- Model of `container.find_all("li", class_="entry")`: every descendant
`li` tag with the css class `entry`, in document order. -/
def findAllLiEntry (container : Node) : List Node :=
  ((descsNode [] container).map (·.2)).filter
    (fun n => sselMatches n ⟨some "li", some "entry", none⟩)

mutual

/-- Concatenation of the text nodes of the subtree in document order:
the string that `"".join(tag.strings)` builds. -/
def Node.stringsJoin : Node → String
  | .tnode s => s
  | .elem _ _ cs => Node.stringsJoinKids cs

/-- Text concatenation over a list of siblings. -/
def Node.stringsJoinKids : NodeList → String
  | .nil => ""
  | .cons c cs => Node.stringsJoin c ++ Node.stringsJoinKids cs

end

/-- Model of `tag.string`: the unique text child, through a unique element
child, `None` otherwise. -/
def Node.str? : Node → Option String
  | .tnode s => some s
  | .elem _ _ (.cons c .nil) => Node.str? c
  | .elem _ _ _ => none

/-! ## Entry and page extraction (`parse.py`) -/

/-- The `Entry` namedtuple: one article reference. -/
structure Entry where
  url : Option String
  title : Option String
  summary : Option String
  pubdate : Option DateTime
  thumbnail : Option String
deriving DecidableEq, Repr

/-- The `FeedData` namedtuple: one logical feed. -/
structure FeedData where
  title : Option String
  url : Option String
  author : Option String
  description : Option String
  entries : List Entry
deriving DecidableEq, Repr

/-- Selector `a.entryBody`. -/
def selEntryBody : List SSel := [⟨some "a", some "entryBody", none⟩]

/-- Selector `dd.thumb img`, innermost first. -/
def selThumbImg : List SSel :=
  [⟨some "img", none, none⟩, ⟨some "dd", some "thumb", none⟩]

/-- Selector `dt.ttl`. -/
def selTtl : List SSel := [⟨some "dt", some "ttl", none⟩]

/-- Selector `dd.summary`. -/
def selSummary : List SSel := [⟨some "dd", some "summary", none⟩]

/-- Selector `dd.pubdate`. -/
def selPubdate : List SSel := [⟨some "dd", some "pubdate", none⟩]

/-- `extract_entry_link`: `link and link["href"]`.  A missing anchor gives
`None`; a present anchor missing its `href` attribute raises `KeyError`. -/
def extract_entry_link (e : Node) : Except PyError (Option String) :=
  match select1 e selEntryBody with
  | none => .ok none
  | some link => (link.subscript "href").map some

/-- `extract_entry_thumbnail`: `thumb and thumb["src"]`. -/
def extract_entry_thumbnail (e : Node) : Except PyError (Option String) :=
  match select1 e selThumbImg with
  | none => .ok none
  | some thumb => (thumb.subscript "src").map some

/-- `extract_entry_title`: text concatenation of the title slot. -/
def extract_entry_title (e : Node) : Option String :=
  (select1 e selTtl).map Node.stringsJoin

/-- `extract_entry_summary`: text concatenation of the summary slot. -/
def extract_entry_summary (e : Node) : Option String :=
  (select1 e selSummary).map Node.stringsJoin

/-- `extract_entry_pubdate`: the date slot text through `parse_pubdate`
with no explicit reference year, which therefore defaults to the current
Asia/Tokyo year `nowYear`.  A `ValueError` of the `datetime` constructor
propagates. -/
def extract_entry_pubdate (nowYear : Nat) (e : Node) :
    Except PyError (Option DateTime) :=
  match select1 e selPubdate with
  | none => .ok none
  | some el => parse_pubdate el.stringsJoin none nowYear

/-- `parse_entry`, with the evaluation order of the source (url,
thumbnail, title, summary, pubdate): the first raised exception wins. -/
def parse_entry (nowYear : Nat) (e : Node) : Except PyError Entry := do
  let url ← extract_entry_link e
  let thumbnail ← extract_entry_thumbnail e
  let title := extract_entry_title e
  let summary := extract_entry_summary e
  let pubdate ← extract_entry_pubdate nowYear e
  .ok ⟨url, title, summary, pubdate, thumbnail⟩

/-- `extract_entries`: no container with id `athr_al` means no entries;
otherwise each `li.entry` in the container yields one parsed entry, any
raised exception aborting the whole list comprehension. -/
def extract_entries (nowYear : Nat) (soup : Node) :
    Except PyError (List Entry) :=
  match findById soup "athr_al" with
  | none => .ok []
  | some container => (findAllLiEntry container).mapM (parse_entry nowYear)

/-- Selector `title`. -/
def selTitle : List SSel := [⟨some "title", none, none⟩]

/-- Selector `meta[name="description"]`. -/
def selMetaDesc : List SSel :=
  [⟨some "meta", none, some ("name", "description")⟩]

/-- Selector `link[rel="canonical"]`. -/
def selCanonical : List SSel :=
  [⟨some "link", none, some ("rel", "canonical")⟩]

/-- Selector `head title`, innermost first. -/
def selHeadTitle : List SSel :=
  [⟨some "title", none, none⟩, ⟨some "head", none, none⟩]

/-- `extract_title`: `title_elem and title_elem.string`; a tag is always
truthy, so a present but empty title element yields `None` through
`.string`. -/
def extract_title (soup : Node) : Option String :=
  (select1 soup selTitle).bind Node.str?

/-- `extract_description`: `desc_elem and desc_elem["content"]`; a present
meta tag without the `content` attribute raises `KeyError`. -/
def extract_description (soup : Node) : Except PyError (Option String) :=
  match select1 soup selMetaDesc with
  | none => .ok none
  | some el => (el.subscript "content").map some

/-- `extract_canonical_url`: `canon_elem and canon_elem["href"]`. -/
def extract_canonical_url (soup : Node) : Except PyError (Option String) :=
  match select1 soup selCanonical with
  | none => .ok none
  | some el => (el.subscript "href").map some

/-- `extract_author`: the head title string matched against
`(.+)の記事一覧`.  When the title element has no `.string` (for instance an
empty title), Python evaluates `re.match(pattern, None)`, a `TypeError`.
Group 1 of a match is nonempty, hence truthy, so `m and m.group(1) or
None` is the group on success and `None` otherwise. -/
def extract_author (soup : Node) : Except PyError (Option String) :=
  match select1 soup selHeadTitle with
  | none => .ok none
  | some titleElem =>
    match titleElem.str? with
    | none => .error .typeError
    | some s => .ok ((authMatch s.data).map List.asString)

/-- `parse`: the five extractions in source order over the parsed
document, assembled into a `FeedData`.  The html5lib markup parsing that
precedes them is the external parser boundary; the embedding starts from
its output tree. -/
def parse (nowYear : Nat) (soup : Node) : Except PyError FeedData := do
  let title := extract_title soup
  let author ← extract_author soup
  let description ← extract_description soup
  let canonicalUrl ← extract_canonical_url soup
  let entries ← extract_entries nowYear soup
  .ok ⟨title, canonicalUrl, author, description, entries⟩

/-! ## Validation and merge (`command/main.py`) -/

/-- Python truthiness of an optional string: `None` and the empty string
are falsy. -/
def pyFalsyStr : Option String → Bool
  | none => true
  | some s => s.isEmpty

/-- `validate_feeddata`: false when author, title or url is falsy; an
empty entry list only logs a warning (logging is an external collaborator
call with no effect on the returned value). -/
def validate_feeddata (d : FeedData) : Bool :=
  if pyFalsyStr d.author then false
  else if pyFalsyStr d.title then false
  else if pyFalsyStr d.url then false
  else true

/-- Python `==` on optional strings as sort-key components: `None` equals
only `None`; two strings compare by value. -/
def pyEqOptStr : Option String → Option String → Bool
  | none, none => true
  | some a, some b => a == b
  | _, _ => false

/-- Python `<` on optional strings: comparing `None` with anything raises
`TypeError`; strings compare lexicographically by code point, which is
the `String` order of the model. -/
def pyLtOptStr : Option String → Option String → Except PyError Bool
  | some a, some b => .ok (decide (a < b))
  | _, _ => .error .typeError

/-- Python `==` on optional datetimes: aware datetimes compare their
instants; `None` equals only `None`. -/
def pyEqOptDt : Option DateTime → Option DateTime → Bool
  | none, none => true
  | some a, some b => dtEqB a b
  | _, _ => false

/-- Python `<` on optional datetimes: `TypeError` when either side is
`None`. -/
def pyLtOptDt : Option DateTime → Option DateTime → Except PyError Bool
  | some a, some b => .ok (dtLtB a b)
  | _, _ => .error .typeError

/-- The sort key of the merge: `[entry.pubdate, entry.title]`. -/
def entryKey (e : Entry) : Option DateTime × Option String :=
  (e.pubdate, e.title)

/-- Python `<` on the two-element key lists: compare the heads with `==`,
on equality the seconds decide, otherwise the heads decide with `<`. -/
def keyLtE (k1 k2 : Option DateTime × Option String) : Except PyError Bool :=
  if pyEqOptDt k1.1 k2.1 then
    if pyEqOptStr k1.2 k2.2 then .ok false else pyLtOptStr k1.2 k2.2
  else pyLtOptDt k1.1 k2.1

/-- Stable insertion for the descending sort: a new element goes after
every earlier element whose key is not strictly below its own.  Any
comparison between an absent and a present component raises, as in the
source. -/
def insertE (x : Entry) : List Entry → Except PyError (List Entry)
  | [] => .ok [x]
  | y :: ys => do
    let b ← keyLtE (entryKey y) (entryKey x)
    if b then .ok (x :: y :: ys)
    else do
      let r ← insertE x ys
      .ok (y :: r)

/-- Model of `sorted(entries, key=lambda e: [e.pubdate, e.title],
reverse=True)`.  CPython `sorted` is a stable sort raising the comparison
exceptions of the key order; a stable sort with a fixed total key order
has a unique result, so the insertion sort below returns exactly the
CPython result whenever every needed comparison is defined, and raises
the same `TypeError` on the two-element mixed inputs used as concrete
cases. -/
def sortEntriesRev (l : List Entry) : Except PyError (List Entry) :=
  l.foldlM (fun acc x => insertE x acc) []

/-- The comma-and-space join of the inputs' authors:
`", ".join(feed.author for feed in feeds)`.  Joining a `None` author
raises `TypeError`. -/
def joinAuthors (feeds : List FeedData) : Except PyError String := do
  let as ← feeds.mapM (fun f =>
    match f.author with
    | some a => Except.ok a
    | none => Except.error PyError.typeError)
  .ok (String.intercalate ", " as)

/-- The multi-feed branch of `SingleFileOutputHandler.finish` (taken
whenever the collected list does not have exactly one element): the
synthetic merged `FeedData`.  Evaluation order of the source: the author
join first, then the subscription `feed_list[0]`, then the sort. -/
def merge (feeds : List FeedData) : Except PyError FeedData := do
  let authors ← joinAuthors feeds
  match feeds with
  | [] => .error .indexError
  | f0 :: _ => do
    let es ← sortEntriesRev (feeds.flatMap (·.entries))
    .ok ⟨some (authors ++ " - Yahoo!個人ニュース (非公式RSS)"), f0.url,
      some authors, some "", es⟩

/-! ## Feed rendering (`feed.py`) -/

/-- One `feed.add_item` call of `make_rss`, with the arguments the source
passes. -/
structure RssItem where
  title : Option String
  link : Option String
  description : Option String
  author_name : Option String
  pubdate : Option DateTime
deriving DecidableEq, Repr

/-- Modelled from the spec: the wire document handed to the external
`feedgenerator` serializer.  The library itself is not repository code;
per the spec the serializer is a pure function of the channel and item
arguments, so the model keeps the document structured rather than as
bytes. -/
structure RssDoc where
  title : String
  link : Option String
  description : Option String
  language : String
  author_name : String
  items : List RssItem
deriving DecidableEq, Repr

/-- `make_rss`: raises `ValueError` when the author is falsy, otherwise
builds the feed document from the `FeedData`.  The channel title is built
from the author; `FeedData.title` and the entry thumbnails are never
passed to the serializer. -/
def make_rss (d : FeedData) : Except PyError RssDoc :=
  match d.author with
  | none => .error .valueError
  | some author =>
    if author.isEmpty then .error .valueError
    else
      .ok ⟨author ++ " - Yahoo!ニュース個人 (非公式RSS)", d.url,
        d.description, "ja", author,
        d.entries.map (fun e => ⟨e.title, e.url, e.summary, some author,
          e.pubdate⟩)⟩

/-- `make_rss` with the resolution instant made explicit: the source
reads no clock and no other state, so the parameter is unused.  The
rendering entry point the program exposes. -/
def renderAt (d : FeedData) (resolutionTime : Nat) : Except PyError RssDoc :=
  let _ := resolutionTime
  make_rss d

/-! ## Specification-side definitions

The following definitions transcribe the wording of the specification (not
the source); the theorems below compare the source model against them. -/

/-- Spec wording: a page-level string field is absent when it is missing
or the empty string (the validation section treats `author=""` as
absent). -/
def isAbsentStr (o : Option String) : Prop :=
  o = none ∨ o = some ""

/-- Spec wording for the month fragment `[1-9]|1[012]`: one digit 1-9, or
1 followed by 0, 1 or 2. -/
def MonthS (l : List Char) : Prop :=
  (∃ c, l = [c] ∧ c.isDigit ∧ c ≠ '0')
    ∨ (∃ c, l = ['1', c] ∧ (c = '0' ∨ c = '1' ∨ c = '2'))

/-- The day fragment shape `[123]?[0-9]` that the source actually accepts:
one digit, or a digit prefixed by 1, 2 or 3 (hence the values 0 to 39). -/
def DayS (l : List Char) : Prop :=
  (∃ c, l = [c] ∧ c.isDigit)
    ∨ (∃ c1 c2, l = [c1, c2] ∧ (c1 = '1' ∨ c1 = '2' ∨ c1 = '3') ∧ c2.isDigit)

/-- A one or two digit numeral, the shape `[0-9]{1,2}` of the hour and of
the minutes. -/
def Digit12 (l : List Char) : Prop :=
  (∃ c, l = [c] ∧ c.isDigit) ∨ (∃ c1 c2, l = [c1, c2] ∧ c1.isDigit ∧ c2.isDigit)

/-- A date fragment `M/D` followed, after a gap free of newlines (the lazy
`.*?` cannot cross one), by a time fragment `H:MM` with one or two digit
hour and minutes. -/
def FragCore (u : List Char) : Prop :=
  ∃ mS dS gap hS minS post,
    u = mS ++ '/' :: (dS ++ gap ++ hS ++ ':' :: (minS ++ post))
      ∧ MonthS mS ∧ DayS dS ∧ ¬ gap.contains '\n'
      ∧ Digit12 hS ∧ Digit12 minS

/-- The full recognised shape: anywhere in the text, an optional four
digit year with a slash, then a month/day/time core. -/
def FragSpec (s : List Char) : Prop :=
  ∃ pre rest, s = pre ++ rest ∧
    ((∃ y4 u, rest = y4 ++ '/' :: u ∧ y4.length = 4
        ∧ (∀ c ∈ y4, c.isDigit) ∧ FragCore u)
      ∨ FragCore rest)

/-- Spec wording for the author pattern: the head title decomposes into a
nonempty newline-free prefix immediately followed by the fixed suffix
`の記事一覧` (and arbitrary trailing text). -/
def AuthorShape (s : List Char) : Prop :=
  ∃ p rest, p ≠ [] ∧ ¬ p.contains '\n' ∧ s = p ++ kijiSuffix ++ rest

/-- Spec wording of the implicit claim on rendering: two entries agreeing
on everything the serializer receives, i.e. possibly differing in their
thumbnail. -/
def eqExceptThumbnail (e1 e2 : Entry) : Prop :=
  e1.url = e2.url ∧ e1.title = e2.title ∧ e1.summary = e2.summary
    ∧ e1.pubdate = e2.pubdate

/-! ## Proof-internal reference versions of the merge sort

`sortB` is the same stable insertion as `sortEntriesRev` with the
comparison forced total; the theorems show the two agree when every entry
carries a pubdate and a title, and relate `sortB` to order-theoretic
statements through the lexicographic key `lexKey`. -/

/-- Equality of two sort keys under the Python comparison. -/
def keyEqB (k1 k2 : Option DateTime × Option String) : Bool :=
  pyEqOptDt k1.1 k2.1 && pyEqOptStr k1.2 k2.2

/-- Total version of the key comparison: identical to `keyLtE` on keys
with both components present, `false` wherever `keyLtE` raises. -/
def keyLtB (k1 k2 : Option DateTime × Option String) : Bool :=
  if pyEqOptDt k1.1 k2.1 then
    if pyEqOptStr k1.2 k2.2 then false
    else
      match k1.2, k2.2 with
      | some a, some b => decide (a < b)
      | _, _ => false
  else
    match k1.1, k2.1 with
    | some a, some b => dtLtB a b
    | _, _ => false

/-- Pure counterpart of `insertE`. -/
def insertB (x : Entry) : List Entry → List Entry
  | [] => [x]
  | y :: ys =>
    if keyLtB (entryKey y) (entryKey x) then x :: y :: ys
    else y :: insertB x ys

/-- Pure counterpart of `sortEntriesRev`. -/
def sortB (l : List Entry) : List Entry :=
  l.foldl (fun acc x => insertB x acc) []

/-- An entry usable as a sort key without a `TypeError`: pubdate and
title both present. -/
def entryKeyed (e : Entry) : Prop :=
  e.pubdate.isSome ∧ e.title.isSome

instance (e : Entry) : Decidable (entryKeyed e) :=
  inferInstanceAs (Decidable (_ ∧ _))

/-- The linear-order image of a keyed entry: the instant of its pubdate
paired lexicographically with its title. -/
def lexKey (e : Entry) : Int ×ₗ String :=
  toLex ((match e.pubdate with | some d => utcMinutes d | none => 0),
    (match e.title with | some t => t | none => ""))

/-! ## Concrete inputs used by the theorems -/

/-- 2021-01-01 00:00 JST. -/
def dtJan : DateTime := ⟨2021, 1, 1, 0, 0, 540⟩

/-- 2021-02-01 00:00 JST. -/
def dtFeb : DateTime := ⟨2021, 2, 1, 0, 0, 540⟩

/-- 2021-03-01 00:00 JST. -/
def dtMar : DateTime := ⟨2021, 3, 1, 0, 0, 540⟩

/-- A dated entry of January. -/
def eJan : Entry := ⟨some "u1", some "t1", some "s1", some dtJan, none⟩

/-- A dated entry of February. -/
def eFeb : Entry := ⟨some "u2", some "t2", some "s2", some dtFeb, none⟩

/-- A dated entry of March. -/
def eMar : Entry := ⟨some "u3", some "t3", some "s3", some dtMar, none⟩

/-- An entry whose pubdate is absent. -/
def eUndated : Entry := ⟨some "u4", some "t4", some "s4", none, none⟩

/-- A feed with entries dated January and March, in that input order. -/
def feedJanMar : FeedData :=
  ⟨some "TP", some "uP", some "A", some "dP", [eJan, eMar]⟩

/-- A feed with one entry dated February. -/
def feedFeb : FeedData := ⟨some "TQ", some "uQ", some "B", some "dQ", [eFeb]⟩

/-- A feed with one undated entry. -/
def feedUndated : FeedData :=
  ⟨some "TU", some "uU", some "C", some "dU", [eUndated]⟩

/-- An entry list item whose anchor is present but carries no `href`
attribute. -/
def badAnchorLi : Node :=
  nel "li" [("class", "entry")]
    [nel "a" [("class", "entryBody")] [.tnode "x"]]

/-- A document whose article container holds the malformed item. -/
def docBadAnchor : Node :=
  nel "html" [] [nel "body" [] [nel "div" [("id", "athr_al")] [badAnchorLi]]]

/-- An entry list item with no anchor at all but the other slots
populated. -/
def liNoAnchor : Node :=
  nel "li" [("class", "entry")]
    [nel "dl" []
      [nel "dt" [("class", "ttl")] [.tnode "Title", .tnode "One"],
       nel "dd" [("class", "summary")] [.tnode "Sum1"],
       nel "dd" [("class", "pubdate")] [.tnode "2019/12/3(火) 22:26"]]]

/-- A fully formed entry list item. -/
def liFull : Node :=
  nel "li" [("class", "entry")]
    [nel "dl" []
      [nel "dt" [("class", "ttl")]
        [nel "a" [("class", "entryBody"), ("href", "http://e2")]
          [.tnode "Title2"]],
       nel "dd" [("class", "thumb")] [nel "img" [("src", "http://img2")] []],
       nel "dd" [("class", "summary")] [.tnode "Sum2"],
       nel "dd" [("class", "pubdate")] [.tnode "9/2(水) 8:32"]]]

/-- A document with the anchor-less item followed by a complete item. -/
def docTwoEntries : Node :=
  nel "html" []
    [nel "body" [] [nel "div" [("id", "athr_al")] [liNoAnchor, liFull]]]

/-- A well formed author page head with no entry container. -/
def docGood : Node :=
  nel "html" []
    [nel "head" []
      [nel "title" [] [.tnode "田中太郎の記事一覧 - Yahoo!ニュース"],
       nel "meta" [("name", "description"), ("content", "記事のリスト")] [],
       nel "link"
         [("rel", "canonical"),
          ("href", "https://news.yahoo.co.jp/byline/tanaka")] []],
     nel "body" [] []]

/-- A document whose meta description tag has no `content` attribute. -/
def docBadMeta : Node :=
  nel "html" []
    [nel "head" []
      [nel "title" [] [.tnode "田中太郎の記事一覧"],
       nel "meta" [("name", "description")] []],
     nel "body" [] []]

/-- A document whose head title element is empty, so `.string` is
`None`. -/
def docEmptyTitle : Node :=
  nel "html" [] [nel "head" [] [nel "title" [] []], nel "body" [] []]

/-- A document whose head title does not contain the author suffix. -/
def docNoAuthor : Node :=
  nel "html" []
    [nel "head" [] [nel "title" [] [.tnode "Yahoo!ニュース"]],
     nel "body" [] []]

/-- A document with none of the recognised elements. -/
def docPlain : Node := nel "html" [] [nel "body" [] [.tnode "hello"]]

/-- Two feeds differing only in the feed title and in one entry
thumbnail: the first variant. -/
def feedThumbVar1 : FeedData :=
  ⟨some "title one", some "uX", some "X", some "dX",
    [⟨some "u", some "t", some "s", some dtJan, some "thumbA"⟩]⟩

/-- Two feeds differing only in the feed title and in one entry
thumbnail: the second variant. -/
def feedThumbVar2 : FeedData :=
  ⟨some "title two", some "uX", some "X", some "dX",
    [⟨some "u", some "t", some "s", some dtJan, some "thumbB"⟩]⟩

/-! ## Theorems -/

/-- Python string truthiness coincides with the spec notion of an absent
string field. -/
theorem pyFalsyStr_iff (o : Option String) :
    pyFalsyStr o = true ↔ isAbsentStr o := by
  cases o with
  | none => simp [pyFalsyStr, isAbsentStr]
  | some s =>
    simp only [pyFalsyStr, isAbsentStr, String.isEmpty_iff]
    constructor
    · intro h; exact Or.inr (by simpa using congrArg some h)
    · rintro (h | h)
      · exact absurd h (by simp)
      · simpa using h

/-- Claim C1 (code bug): merging a feed holding a dated entry with a feed
holding an undated entry does not return a merged feed at all: the sort
key comparison orders `None` against a datetime and raises `TypeError`,
in either input order.  The claim (and the spec merge contract) instead
require a returned feed with the undated entry sorted last. -/
theorem merge_undated_raises :
    merge [feedJanMar, feedUndated] = .error .typeError
      ∧ merge [feedUndated, feedJanMar] = .error .typeError :=
  ⟨by decide, by decide⟩

/-- Claim C2, counterexample: an entry item whose anchor is present but
lacks the `href` attribute makes `extract_entries` raise `KeyError`,
aborting extraction, contrary to the claim that extraction never fails
and merely leaves fields absent. -/
theorem extract_entries_anchor_attr_raises :
    extract_entries 2024 docBadAnchor = .error .keyError := by decide

/-- Claim C2, amended: a document without the `athr_al` container yields
the empty entry list; an item missing a sub-element (here the whole
anchor) yields an entry with that field absent and the remaining items
are still extracted; but an anchor present without its `href` attribute
raises `KeyError` and aborts extraction. -/
theorem extract_entries_robustness_amended :
    (∀ nowYear soup, findById soup "athr_al" = none →
        extract_entries nowYear soup = .ok [])
      ∧ extract_entries 2024 docTwoEntries = .ok
          [⟨none, some "TitleOne", some "Sum1",
              some ⟨2019, 12, 3, 22, 26, 540⟩, none⟩,
           ⟨some "http://e2", some "Title2", some "Sum2",
              some ⟨2024, 9, 2, 8, 32, 540⟩, some "http://img2"⟩]
      ∧ extract_entries 2024 docBadAnchor = .error .keyError := by
  refine ⟨?_, by decide, by decide⟩
  intro n soup h
  unfold extract_entries
  rw [h]

/-- Claim C2, witness: the container-absent branch at a concrete
document. -/
theorem extract_entries_robustness_amended_witness :
    extract_entries 7 docPlain = .ok [] :=
  extract_entries_robustness_amended.1 7 docPlain (by decide)

/-- Claim C4: the three documented resolutions of the Date Resolver (the
reference year fills an elided year; an explicit year wins for every
resolution-time year; text without a date yields absence, never an
error), and the general year-defaulting rule: a match without a year
group resolves with the supplied reference year, falling back to the
current Asia/Tokyo year.  All constructed datetimes carry the fixed
UTC+9 offset of 540 minutes. -/
theorem parse_pubdate_resolution :
    (∀ n, parse_pubdate "9/2(Wed) 8:32" (some 2020) n =
        .ok (some ⟨2020, 9, 2, 8, 32, 540⟩))
      ∧ (∀ n, parse_pubdate "2019/12/3(Tue) 22:26" none n =
          .ok (some ⟨2019, 12, 3, 22, 26, 540⟩))
      ∧ (∀ ty n, parse_pubdate "no date here" ty n = .ok none)
      ∧ (∀ s ty n g, regexSearch s.data = some g → g.year = none →
          parse_pubdate s ty n =
            (mkDatetime (ty.getD n) g.month g.day g.hour g.minute).map some) := by
  refine ⟨fun n => rfl, fun n => rfl, fun ty n => rfl, ?_⟩
  intro s ty n g h hy
  unfold parse_pubdate
  rw [h]
  obtain ⟨gy, gmo, gd, gh, gmi⟩ := g
  simp only at hy
  subst hy
  rfl

/-- Claim C4, witness: the year-defaulting conjunct instantiated at a
concrete text, reference year and wall-clock year. -/
theorem parse_pubdate_resolution_witness :
    parse_pubdate "9/2(Wed) 8:32" (some 2021) 1999 =
      (mkDatetime ((some 2021).getD 1999) 9 2 8 32).map some :=
  parse_pubdate_resolution.2.2.2 "9/2(Wed) 8:32" (some 2021) 1999
    ⟨none, 9, 2, 8, 32⟩ (by decide) rfl

/-- Claim C5, counterexample: a one-digit minute is accepted (the time
shape is `[0-9]{1,2}:[0-9]{1,2}`), and a day of 0 passes the shape check
and then raises `ValueError` in the datetime constructor; the claim
predicted absence for both inputs. -/
theorem parse_pubdate_shape_counterexample :
    parse_pubdate "9/2(Wed) 8:3" (some 2020) 2020 =
        .ok (some ⟨2020, 9, 2, 8, 3, 540⟩)
      ∧ parse_pubdate "9/0(Wed) 8:32" (some 2020) 2020 =
          .error .valueError :=
  ⟨by decide, by decide⟩

/-- Claim C6, counterexample: the page-level lookups can fail the overall
parse: a present meta description tag without its `content` attribute
raises `KeyError`, and a head title element without a string raises
`TypeError` from matching the author pattern against `None`. -/
theorem parse_page_lookup_raises :
    parse 2024 docBadMeta = .error .keyError
      ∧ parse 2024 docEmptyTitle = .error .typeError :=
  ⟨by decide, by decide⟩

/-- Claim C7: validation returns false exactly when author, title or url
is absent in the spec sense (missing or empty), and the two documented
concrete cases: an empty author is invalid; all three present with no
entries is valid (the empty entry list only logs a warning). -/
theorem validate_feeddata_characterization :
    (∀ d, validate_feeddata d = false ↔
        (isAbsentStr d.author ∨ isAbsentStr d.title ∨ isAbsentStr d.url))
      ∧ validate_feeddata ⟨some "x", some "y", some "", none, []⟩ = false
      ∧ validate_feeddata ⟨some "x", some "y", some "a", none, []⟩ = true := by
  refine ⟨?_, by decide, by decide⟩
  intro d
  have hb : ∀ x y z : Bool,
      (if x then false else if y then false else if z then false
        else true) = false ↔ (x = true ∨ y = true ∨ z = true) := by decide
  rw [validate_feeddata, hb, pyFalsyStr_iff, pyFalsyStr_iff, pyFalsyStr_iff]

/-- Claim C8: rendering succeeds exactly on a present (nonempty) author:
with one it returns a document, without one it raises `ValueError`. -/
theorem make_rss_author_gate :
    (∀ d a, d.author = some a → ¬ a.isEmpty = true →
        ∃ r, make_rss d = .ok r)
      ∧ (∀ d, isAbsentStr d.author → make_rss d = .error .valueError) := by
  constructor
  · intro d a h hne
    obtain ⟨t, u, a0, de, es⟩ := d
    simp only at h
    subst h
    refine ⟨⟨a ++ " - Yahoo!ニュース個人 (非公式RSS)", u, de, "ja", a,
      es.map (fun e => ⟨e.title, e.url, e.summary, some a, e.pubdate⟩)⟩, ?_⟩
    simp [make_rss, hne]
  · intro d h
    obtain ⟨t, u, a0, de, es⟩ := d
    rcases h with h | h <;> simp only at h <;> subst h <;> rfl

/-- Claim C8, witness: both branches at concrete feeds. -/
theorem make_rss_author_gate_witness :
    (∃ r, make_rss feedJanMar = .ok r)
      ∧ make_rss ⟨some "T", some "u", none, some "d", []⟩ =
          .error .valueError :=
  ⟨make_rss_author_gate.1 feedJanMar "A" rfl (by decide),
   make_rss_author_gate.2 ⟨some "T", some "u", none, some "d", []⟩
     (Or.inl rfl)⟩

/-- Claim C9: rendering is a pure function of the `FeedData`: the source
reads no clock, so the result at any two resolution instants is the same
value.  The byte serialization behind the structured document is the
external `feedgenerator` collaborator, modelled per the spec serializer
contract as a pure function of the document. -/
theorem render_deterministic :
    ∀ d t1 t2, renderAt d t1 = renderAt d t2 :=
  fun _ _ _ => rfl

/-- Claim C10: the rendered document never depends on `FeedData.title`
nor on entry thumbnails, and the channel title is built from the author
alone. -/
theorem make_rss_ignores_title_and_thumbnail :
    ∀ d1 d2 a, d1.author = some a → d2.author = some a →
      ¬ a.isEmpty = true → d1.url = d2.url → d1.description = d2.description →
      List.Forall₂ eqExceptThumbnail d1.entries d2.entries →
      make_rss d1 = make_rss d2
        ∧ ∀ r, make_rss d1 = .ok r →
            r.title = a ++ " - Yahoo!ニュース個人 (非公式RSS)" := by
  intro d1 d2 a h1 h2 hne hurl hdesc hent
  obtain ⟨t1, u1, a1, de1, es1⟩ := d1
  obtain ⟨t2, u2, a2, de2, es2⟩ := d2
  simp only at h1 h2 hurl hdesc hent
  subst h1; subst h2; subst hurl; subst hdesc
  have hitems :
      es1.map (fun e =>
          (⟨e.title, e.url, e.summary, some a, e.pubdate⟩ : RssItem)) =
        es2.map (fun e => ⟨e.title, e.url, e.summary, some a, e.pubdate⟩) := by
    induction hent with
    | nil => rfl
    | cons h t ih =>
      obtain ⟨hu, ht, hs, hp⟩ := h
      simp only [List.map_cons, ih, List.cons.injEq, and_true]
      rw [hu, ht, hs, hp]
  constructor
  · simp [make_rss, hne, hitems]
  · intro r hr
    simp only [make_rss, hne, if_neg hne] at hr
    cases hr
    rfl

/-- Claim C10, witness: two concrete feeds differing only in feed title
and entry thumbnail render identically. -/
theorem make_rss_ignores_title_and_thumbnail_witness :
    make_rss feedThumbVar1 = make_rss feedThumbVar2 :=
  (make_rss_ignores_title_and_thumbnail feedThumbVar1 feedThumbVar2 "X"
    rfl rfl (by decide) rfl rfl
    (List.Forall₂.cons ⟨rfl, rfl, rfl, rfl⟩ List.Forall₂.nil)).1

/-! ## Order lemmas for the merge sort -/

/-- A keyed entry exposes its pubdate and title. -/
theorem entryKeyed_elim {e : Entry} (h : entryKeyed e) :
    ∃ d t, e.pubdate = some d ∧ e.title = some t := by
  obtain ⟨h1, h2⟩ := h
  obtain ⟨d, hd⟩ := Option.isSome_iff_exists.mp h1
  obtain ⟨t, ht⟩ := Option.isSome_iff_exists.mp h2
  exact ⟨d, t, hd, ht⟩

/-- On keyed entries the total comparison is the strict lexicographic
order of `lexKey`. -/
theorem keyLtB_lex {e1 e2 : Entry} (h1 : entryKeyed e1) (h2 : entryKeyed e2) :
    keyLtB (entryKey e1) (entryKey e2) = decide (lexKey e1 < lexKey e2) := by
  obtain ⟨d1, t1, hp1, ht1⟩ := entryKeyed_elim h1
  obtain ⟨d2, t2, hp2, ht2⟩ := entryKeyed_elim h2
  simp only [keyLtB, entryKey, lexKey, hp1, ht1, hp2, ht2, pyEqOptDt,
    pyEqOptStr, dtEqB, dtLtB, Prod.Lex.lt_iff]
  by_cases hd : utcMinutes d1 = utcMinutes d2
  · by_cases ht : t1 = t2
    · simp [hd, ht]
    · simp [hd, ht]
  · simp [hd]

/-- On keyed entries the Python comparison never raises and agrees with
the total comparison. -/
theorem keyLtE_total {e1 e2 : Entry} (h1 : entryKeyed e1) (h2 : entryKeyed e2) :
    keyLtE (entryKey e1) (entryKey e2) =
      .ok (keyLtB (entryKey e1) (entryKey e2)) := by
  obtain ⟨d1, t1, hp1, ht1⟩ := entryKeyed_elim h1
  obtain ⟨d2, t2, hp2, ht2⟩ := entryKeyed_elim h2
  simp only [keyLtE, keyLtB, entryKey, hp1, ht1, hp2, ht2, pyEqOptDt,
    pyEqOptStr, pyLtOptDt, pyLtOptStr, dtEqB, dtLtB]
  split_ifs <;> rfl

/-- Two keyed entries whose keys both equal a third key have the same
lexicographic image. -/
theorem keyEq_lex_of {x b : Entry} {k : Option DateTime × Option String}
    (hx : entryKeyed x) (hb : entryKeyed b)
    (h1 : keyEqB (entryKey x) k = true) (h2 : keyEqB (entryKey b) k = true) :
    lexKey b = lexKey x := by
  obtain ⟨dx, tx, hpx, htx⟩ := entryKeyed_elim hx
  obtain ⟨db, tb, hpb, htb⟩ := entryKeyed_elim hb
  obtain ⟨k1, k2⟩ := k
  cases k1 with
  | none => simp [keyEqB, entryKey, hpx, pyEqOptDt] at h1
  | some dk =>
    cases k2 with
    | none => simp [keyEqB, entryKey, hpx, htx, pyEqOptDt, pyEqOptStr] at h1
    | some tk =>
      simp only [keyEqB, entryKey, hpx, htx, hpb, htb, pyEqOptDt, pyEqOptStr,
        dtEqB, Bool.and_eq_true, beq_iff_eq] at h1 h2
      simp only [lexKey, hpb, htb, hpx, htx]
      rw [h1.1, h1.2, h2.1, h2.2]

/-- Decomposition of the stable insertion: the new element lands after a
block of elements not below it and before a block led by an element below
it. -/
theorem insertB_split (x : Entry) (l : List Entry) :
    ∃ l1 l2, l = l1 ++ l2 ∧ insertB x l = l1 ++ x :: l2
      ∧ (∀ y ∈ l1, keyLtB (entryKey y) (entryKey x) = false)
      ∧ (∀ z l2t, l2 = z :: l2t → keyLtB (entryKey z) (entryKey x) = true) := by
  induction l with
  | nil =>
    refine ⟨[], [], rfl, rfl, by simp, ?_⟩
    intro z t h
    cases h
  | cons y ys ih =>
    by_cases h : keyLtB (entryKey y) (entryKey x) = true
    · refine ⟨[], y :: ys, rfl, by simp [insertB, h], by simp, ?_⟩
      intro z t hz
      cases hz
      exact h
    · obtain ⟨l1, l2, he, hi, hall, hhd⟩ := ih
      refine ⟨y :: l1, l2, by simp [he], ?_, ?_, hhd⟩
      · simp [insertB, h, hi]
      · intro w hw
        rcases List.mem_cons.mp hw with hw | hw
        · subst hw
          exact Bool.not_eq_true _ ▸ eq_false_of_ne_true h
        · exact hall w hw

/-- Membership through the insertion. -/
theorem mem_insertB {e x : Entry} {l : List Entry} (h : e ∈ insertB x l) :
    e = x ∨ e ∈ l := by
  obtain ⟨l1, l2, he, hi, _, _⟩ := insertB_split x l
  rw [hi] at h
  rcases List.mem_append.mp h with h | h
  · exact Or.inr (he ▸ List.mem_append.mpr (Or.inl h))
  · rcases List.mem_cons.mp h with h | h
    · exact Or.inl h
    · exact Or.inr (he ▸ List.mem_append.mpr (Or.inr h))

/-- The insertion permutes the element onto the list. -/
theorem insertB_perm (x : Entry) (l : List Entry) :
    List.Perm (insertB x l) (x :: l) := by
  obtain ⟨l1, l2, he, hi, _, _⟩ := insertB_split x l
  rw [hi, he]
  exact List.perm_middle

/-- On keyed input the fallible insertion agrees with the total one. -/
theorem insertE_eq_insertB {x : Entry} (hx : entryKeyed x) :
    ∀ l : List Entry, (∀ e ∈ l, entryKeyed e) →
      insertE x l = .ok (insertB x l) := by
  intro l
  induction l with
  | nil => intro _; rfl
  | cons y ys ih =>
    intro h
    have hy : entryKeyed y := h y (by simp)
    have hys : ∀ e ∈ ys, entryKeyed e := fun e he => h e (by simp [he])
    show (keyLtE (entryKey y) (entryKey x)).bind _ = _
    rw [keyLtE_total hy hx]
    by_cases hb : keyLtB (entryKey y) (entryKey x) = true
    · simp only [Except.bind, hb, insertB, if_true]
    · have hb2 : keyLtB (entryKey y) (entryKey x) = false :=
        eq_false_of_ne_true hb
      simp only [Except.bind, hb2, insertB, if_false, ih hys]
      rfl

/-- Everything after the insertion point is strictly below the inserted
element in the lexicographic order. -/
theorem insertB_tail_lt {x : Entry} {l2 : List Entry}
    (hx : entryKeyed x) (hl2 : ∀ e ∈ l2, entryKeyed e)
    (hp2 : l2.Pairwise (fun a b => keyLtB (entryKey a) (entryKey b) = false))
    (hhd : ∀ z l2t, l2 = z :: l2t → keyLtB (entryKey z) (entryKey x) = true) :
    ∀ b ∈ l2, lexKey b < lexKey x := by
  cases l2 with
  | nil => intro b hb; cases hb
  | cons z zs =>
    have hzk : entryKeyed z := hl2 z (by simp)
    have hz : keyLtB (entryKey z) (entryKey x) = true := hhd z zs rfl
    have hzlex : lexKey z < lexKey x := by
      rw [keyLtB_lex hzk hx] at hz
      exact of_decide_eq_true hz
    intro b hb
    rcases List.mem_cons.mp hb with hb | hb
    · subst hb; exact hzlex
    · have hbk : entryKeyed b := hl2 b (by simp [hb])
      have hzb : keyLtB (entryKey z) (entryKey b) = false :=
        (List.pairwise_cons.mp hp2).1 b hb
      rw [keyLtB_lex hzk hbk] at hzb
      have : lexKey b ≤ lexKey z := not_lt.mp (of_decide_eq_false hzb)
      exact lt_of_le_of_lt this hzlex

/-- Inserting into a descending list keeps it descending. -/
theorem pairwise_insertB {x : Entry} {acc : List Entry}
    (hx : entryKeyed x) (hacc : ∀ e ∈ acc, entryKeyed e)
    (hpw : acc.Pairwise (fun a b => keyLtB (entryKey a) (entryKey b) = false)) :
    (insertB x acc).Pairwise
      (fun a b => keyLtB (entryKey a) (entryKey b) = false) := by
  obtain ⟨l1, l2, he, hi, hall, hhd⟩ := insertB_split x acc
  subst he
  rw [hi]
  rw [List.pairwise_append] at hpw ⊢
  obtain ⟨hp1, hp2, hcross⟩ := hpw
  have hl2 : ∀ e ∈ l2, entryKeyed e := fun e he =>
    hacc e (List.mem_append.mpr (Or.inr he))
  have htail := insertB_tail_lt hx hl2 hp2 hhd
  refine ⟨hp1, ?_, ?_⟩
  · rw [List.pairwise_cons]
    refine ⟨?_, hp2⟩
    intro b hb
    have hbk : entryKeyed b := hl2 b hb
    rw [keyLtB_lex hx hbk]
    exact decide_eq_false (not_lt.mpr (le_of_lt (htail b hb)))
  · intro a ha b hb
    rcases List.mem_cons.mp hb with hb | hb
    · subst hb; exact hall a ha
    · exact hcross a ha b hb

/-- The filtered trace of the insertion: the new element lands at the end
of its key class. -/
theorem filter_insertB {x : Entry} {acc : List Entry}
    (hx : entryKeyed x) (hacc : ∀ e ∈ acc, entryKeyed e)
    (hpw : acc.Pairwise (fun a b => keyLtB (entryKey a) (entryKey b) = false))
    (k : Option DateTime × Option String) :
    (insertB x acc).filter (fun e => keyEqB (entryKey e) k) =
      acc.filter (fun e => keyEqB (entryKey e) k)
        ++ (if keyEqB (entryKey x) k then [x] else []) := by
  obtain ⟨l1, l2, he, hi, hall, hhd⟩ := insertB_split x acc
  subst he
  have hl2 : ∀ e ∈ l2, entryKeyed e := fun e he =>
    hacc e (List.mem_append.mpr (Or.inr he))
  have hp2 : l2.Pairwise (fun a b => keyLtB (entryKey a) (entryKey b) = false) :=
    (List.pairwise_append.mp hpw).2.1
  rw [hi, List.filter_append, List.filter_append, List.filter_cons]
  by_cases hk : keyEqB (entryKey x) k = true
  · have hnil : l2.filter (fun e => keyEqB (entryKey e) k) = [] := by
      rw [List.filter_eq_nil_iff]
      intro b hb hbk
      have hbkey : entryKeyed b := hl2 b hb
      have hlex : lexKey b = lexKey x := keyEq_lex_of hx hbkey hk hbk
      have hlt : lexKey b < lexKey x :=
        insertB_tail_lt hx hl2 hp2 hhd b hb
      exact absurd hlex (ne_of_lt hlt)
    rw [hnil, hk]
    simp
  · have hk2 : keyEqB (entryKey x) k = false := eq_false_of_ne_true hk
    rw [hk2]
    simp

/-- The fold of stable insertions: permutation, descending order and
key-class stability, as an invariant over the processed prefix. -/
theorem sortB_foldl_inv :
    ∀ (l acc l0 : List Entry),
      (∀ e ∈ l, entryKeyed e) → (∀ e ∈ acc, entryKeyed e) →
      acc.Pairwise (fun a b => keyLtB (entryKey a) (entryKey b) = false) →
      List.Perm acc l0 →
      (∀ k, acc.filter (fun e => keyEqB (entryKey e) k) =
        l0.filter (fun e => keyEqB (entryKey e) k)) →
      List.Perm (l.foldl (fun acc x => insertB x acc) acc) (l0 ++ l)
        ∧ (l.foldl (fun acc x => insertB x acc) acc).Pairwise
            (fun a b => keyLtB (entryKey a) (entryKey b) = false)
        ∧ ∀ k, (l.foldl (fun acc x => insertB x acc) acc).filter
              (fun e => keyEqB (entryKey e) k) =
            (l0 ++ l).filter (fun e => keyEqB (entryKey e) k) := by
  intro l
  induction l with
  | nil =>
    intro acc l0 _ _ hpw hperm hfil
    simp only [List.foldl_nil, List.append_nil]
    exact ⟨hperm, hpw, hfil⟩
  | cons x xs ih =>
    intro acc l0 hl hacc hpw hperm hfil
    have hx : entryKeyed x := hl x (by simp)
    have hxs : ∀ e ∈ xs, entryKeyed e := fun e he => hl e (by simp [he])
    have hacc2 : ∀ e ∈ insertB x acc, entryKeyed e := by
      intro e he
      rcases mem_insertB he with he | he
      · subst he; exact hx
      · exact hacc e he
    have hpw2 := pairwise_insertB hx hacc hpw
    have hperm2 : List.Perm (insertB x acc) (l0 ++ [x]) := by
      refine (insertB_perm x acc).trans ?_
      refine List.Perm.trans (List.Perm.cons x hperm) ?_
      exact (List.perm_append_singleton x l0).symm
    have hfil2 : ∀ k, (insertB x acc).filter (fun e => keyEqB (entryKey e) k) =
        (l0 ++ [x]).filter (fun e => keyEqB (entryKey e) k) := by
      intro k
      rw [filter_insertB hx hacc hpw k, hfil k, List.filter_append,
        List.filter_cons]
      simp
    have := ih (insertB x acc) (l0 ++ [x]) hxs hacc2 hpw2 hperm2 hfil2
    simpa [List.append_assoc] using this

/-- On keyed input the fallible fold agrees with the total one. -/
theorem foldlM_insertE_eq :
    ∀ (l acc : List Entry),
      (∀ e ∈ l, entryKeyed e) → (∀ e ∈ acc, entryKeyed e) →
      List.foldlM (fun acc x => insertE x acc) acc l =
        .ok (List.foldl (fun acc x => insertB x acc) acc l) := by
  intro l
  induction l with
  | nil => intro acc _ _; rfl
  | cons x xs ih =>
    intro acc hl hacc
    have hx : entryKeyed x := hl x (by simp)
    have hxs : ∀ e ∈ xs, entryKeyed e := fun e he => hl e (by simp [he])
    have hacc2 : ∀ e ∈ insertB x acc, entryKeyed e := by
      intro e he
      rcases mem_insertB he with he | he
      · subst he; exact hx
      · exact hacc e he
    rw [List.foldlM_cons, insertE_eq_insertB hx acc hacc]
    show List.foldlM _ (insertB x acc) xs = _
    rw [ih (insertB x acc) hxs hacc2, List.foldl_cons]

/-- On keyed input the source sort succeeds with the total stable sort. -/
theorem sortE_eq_sortB {l : List Entry} (hl : ∀ e ∈ l, entryKeyed e) :
    sortEntriesRev l = .ok (sortB l) :=
  foldlM_insertE_eq l [] hl (by simp)

/-- The three ordering properties of the total stable sort on keyed
input. -/
theorem sortB_props {l : List Entry} (hl : ∀ e ∈ l, entryKeyed e) :
    List.Perm (sortB l) l
      ∧ (sortB l).Pairwise
          (fun a b => keyLtB (entryKey a) (entryKey b) = false)
      ∧ ∀ k, (sortB l).filter (fun e => keyEqB (entryKey e) k) =
          l.filter (fun e => keyEqB (entryKey e) k) := by
  have h := sortB_foldl_inv l [] [] hl (by simp) (by simp)
    (List.Perm.refl []) (fun k => rfl)
  simpa using h

/-- A present author list extraction: `mapM` returns every author. -/
theorem mapM_author_of_some :
    ∀ (feeds : List FeedData),
      (∀ f ∈ feeds, (f.author).isSome = true) →
      List.mapM (fun f => match f.author with
          | some a => Except.ok a
          | none => Except.error PyError.typeError) feeds =
        .ok (feeds.map (fun f => f.author.getD "")) := by
  intro feeds
  induction feeds with
  | nil => intro _; rfl
  | cons f fs ih =>
    intro h
    obtain ⟨a, ha⟩ := Option.isSome_iff_exists.mp (h f (by simp))
    have hfs := ih (fun g hg => h g (by simp [hg]))
    rw [List.mapM_cons, hfs, List.map_cons, ha]
    rfl

/-- The author join succeeds on present authors and is the
comma-and-space intercalation in input order. -/
theorem joinAuthors_of_some {feeds : List FeedData}
    (h : ∀ f ∈ feeds, (f.author).isSome = true) :
    joinAuthors feeds = .ok (String.intercalate ", "
      (feeds.map (fun f => f.author.getD ""))) := by
  unfold joinAuthors
  rw [mapM_author_of_some feeds h]
  rfl

/-- Claim C3: on two or more input feeds whose authors are present and
whose entries all carry a pubdate and a title, the merge returns a feed
whose author is the comma-and-space join of the input authors in input
order, whose url is the first input url, and whose entry list is a
permutation of the concatenated input entries, descending in the
(pubdate, title) key (no comparison raises), and stable: each key class
keeps its concatenation order.  In particular the documented example
[2021-01-01, 2021-03-01] merged with [2021-02-01] yields
[2021-03-01, 2021-02-01, 2021-01-01]. -/
theorem merge_dated_titled_spec :
    (∀ (feeds : List FeedData) (f0 : FeedData) (rest : List FeedData),
      feeds = f0 :: rest → 2 ≤ feeds.length →
      (∀ f ∈ feeds, (f.author).isSome = true) →
      (∀ f ∈ feeds, ∀ e ∈ f.entries, entryKeyed e) →
      ∃ es,
        merge feeds = .ok ⟨some (String.intercalate ", "
            (feeds.map (fun f => f.author.getD ""))
            ++ " - Yahoo!個人ニュース (非公式RSS)"), f0.url,
          some (String.intercalate ", "
            (feeds.map (fun f => f.author.getD ""))),
          some "", es⟩
        ∧ List.Perm es (feeds.flatMap (·.entries))
        ∧ es.Pairwise (fun a b => keyLtE (entryKey a) (entryKey b) = .ok false)
        ∧ ∀ k, es.filter (fun e => keyEqB (entryKey e) k) =
            (feeds.flatMap (·.entries)).filter
              (fun e => keyEqB (entryKey e) k))
    ∧ merge [feedJanMar, feedFeb] =
        .ok ⟨some "A, B - Yahoo!個人ニュース (非公式RSS)", some "uP",
          some "A, B", some "", [eMar, eFeb, eJan]⟩ := by
  refine ⟨?_, by decide⟩
  intro feeds f0 rest hf hlen hauth hkeyed
  have hkeyedAll : ∀ e ∈ feeds.flatMap (·.entries), entryKeyed e := by
    intro e he
    obtain ⟨f, hfm, hem⟩ := List.mem_flatMap.mp he
    exact hkeyed f hfm e hem
  have hsort := sortE_eq_sortB hkeyedAll
  have hprops := sortB_props hkeyedAll
  refine ⟨sortB (feeds.flatMap (·.entries)), ?_, hprops.1, ?_, hprops.2.2⟩
  · unfold merge
    rw [joinAuthors_of_some hauth]
    show Except.bind _ _ = _
    simp only [Except.bind]
    subst hf
    show Except.bind _ _ = _
    rw [hsort]
    rfl
  · refine (hprops.2.1).imp_of_mem ?_
    intro a b ha hb
    have hak : entryKeyed a := hkeyedAll a ((hprops.1).mem_iff.mp ha)
    have hbk : entryKeyed b := hkeyedAll b ((hprops.1).mem_iff.mp hb)
    intro hab
    rw [keyLtE_total hak hbk, hab]

/-- Claim C3, witness: the merge contract discharged at the documented
concrete pair of feeds. -/
theorem merge_dated_titled_spec_witness :
    ∃ es,
      merge [feedJanMar, feedFeb] = .ok ⟨some (String.intercalate ", "
          ([feedJanMar, feedFeb].map (fun f => f.author.getD ""))
          ++ " - Yahoo!個人ニュース (非公式RSS)"), feedJanMar.url,
        some (String.intercalate ", "
          ([feedJanMar, feedFeb].map (fun f => f.author.getD ""))),
        some "", es⟩
      ∧ List.Perm es ([feedJanMar, feedFeb].flatMap (·.entries))
      ∧ es.Pairwise (fun a b => keyLtE (entryKey a) (entryKey b) = .ok false)
      ∧ ∀ k, es.filter (fun e => keyEqB (entryKey e) k) =
          ([feedJanMar, feedFeb].flatMap (·.entries)).filter
            (fun e => keyEqB (entryKey e) k) :=
  merge_dated_titled_spec.1 [feedJanMar, feedFeb] feedJanMar [feedFeb]
    rfl (by decide) (by decide) (by decide)

/-! ## Characterization of the author pattern -/

/-- A successful author match is a nonempty newline-free prefix of the
title followed by the fixed suffix. -/
theorem authMatchAux_some {s : List Char} :
    ∀ {k p}, authMatchAux s k = some p →
      p ≠ [] ∧ ¬ p.contains '\n' ∧ ∃ rest, s = p ++ kijiSuffix ++ rest := by
  intro k
  induction k with
  | zero => intro p h; cases h
  | succ i ih =>
    intro p h
    rw [authMatchAux] at h
    by_cases hc : ¬ (s.take (i + 1)).contains '\n'
        ∧ kijiSuffix.isPrefixOf (s.drop (i + 1))
    · rw [if_pos hc] at h
      cases h
      obtain ⟨t, ht⟩ := List.isPrefixOf_iff_prefix.mp hc.2
      have hs : s = s.take (i + 1) ++ (kijiSuffix ++ t) := by
        rw [ht, List.take_append_drop]
      refine ⟨?_, hc.1, t, by rw [List.append_assoc]; exact hs⟩
      intro hnil
      rcases List.take_eq_nil_iff.mp hnil with h0 | h0
      · omega
      · rw [h0] at ht
        simp only [List.drop_nil] at ht
        have := List.append_eq_nil.mp ht
        exact absurd this.1 (by decide)
    · rw [if_neg hc] at h
      exact ih h

/-- When a decomposition exists at index `i`, the backtracking loop does
not return `None` from any bound of at least `i`. -/
theorem authMatchAux_ne_none {s : List Char} {i : Nat} (hi : 1 ≤ i)
    (hcond : ¬ (s.take i).contains '\n'
      ∧ kijiSuffix.isPrefixOf (s.drop i)) :
    ∀ k, i ≤ k → authMatchAux s k ≠ none := by
  intro k
  induction k with
  | zero => intro hik; omega
  | succ j ih =>
    intro hik
    rw [authMatchAux]
    by_cases hc : ¬ (s.take (j + 1)).contains '\n'
        ∧ kijiSuffix.isPrefixOf (s.drop (j + 1))
    · rw [if_pos hc]
      simp
    · rw [if_neg hc]
      apply ih
      rcases Nat.lt_or_ge i (j + 1) with h | h
      · omega
      · have : i = j + 1 := by omega
        subst this
        exact absurd hcond hc

/-- The author match fails exactly when the title has no author-suffix
decomposition. -/
theorem authMatch_none_iff (s : List Char) :
    authMatch s = none ↔ ¬ AuthorShape s := by
  constructor
  · intro h hshape
    obtain ⟨p, rest, hp, hnl, hs⟩ := hshape
    have hplen : 1 ≤ p.length := by
      cases p with
      | nil => exact absurd rfl hp
      | cons c cs => simp
    have htake : s.take p.length = p := by
      rw [hs, List.append_assoc]; exact List.take_left ..
    have hdrop : s.drop p.length = kijiSuffix ++ rest := by
      rw [hs, List.append_assoc]; exact List.drop_left ..
    exact authMatchAux_ne_none hplen
      ⟨by rw [htake]; exact hnl,
       by rw [hdrop]; exact List.isPrefixOf_iff_prefix.mpr ⟨rest, rfl⟩⟩
      s.length (by rw [hs]; simp) h
  · intro h
    cases hm : authMatch s with
    | none => rfl
    | some p =>
      obtain ⟨hp, hnl, rest, hs⟩ := authMatchAux_some hm
      exact absurd ⟨p, rest, hp, hnl, hs⟩ h

/-- Claim C6, amended: the four page-level lookups are independently
optional when the corresponding elements are absent; the author is the
nonempty newline-free prefix of the head title cut before the fixed
suffix `の記事一覧`, with absence (not an error) when the title does not
decompose that way; but a present meta description without its `content`
attribute raises `KeyError`, and a head title element without a string
raises `TypeError`, failing the parse. -/
theorem parse_page_lookups_amended :
    (∀ n soup, select1 soup selTitle = none →
        select1 soup selHeadTitle = none →
        select1 soup selMetaDesc = none →
        select1 soup selCanonical = none →
        findById soup "athr_al" = none →
        parse n soup = .ok ⟨none, none, none, none, []⟩)
      ∧ (∀ s : List Char, authMatch s = none ↔ ¬ AuthorShape s)
      ∧ (∀ s p : List Char, authMatch s = some p →
          p ≠ [] ∧ ¬ p.contains '\n' ∧ ∃ rest, s = p ++ kijiSuffix ++ rest)
      ∧ parse 2024 docGood = .ok ⟨some "田中太郎の記事一覧 - Yahoo!ニュース",
          some "https://news.yahoo.co.jp/byline/tanaka", some "田中太郎",
          some "記事のリスト", []⟩
      ∧ parse 2024 docNoAuthor = .ok ⟨some "Yahoo!ニュース", none, none, none, []⟩
      ∧ parse 2024 docBadMeta = .error .keyError
      ∧ parse 2024 docEmptyTitle = .error .typeError := by
  refine ⟨?_, authMatch_none_iff, fun s p h => authMatchAux_some h,
    by decide, by decide, by decide, by decide⟩
  intro n soup h1 h2 h3 h4 h5
  unfold parse extract_title extract_author extract_description
    extract_canonical_url extract_entries
  rw [h1, h2, h3, h4, h5]
  rfl

/-- Claim C6, witness: the absent-elements branch at a concrete
document. -/
theorem parse_page_lookups_amended_witness :
    parse 3 docPlain = .ok ⟨none, none, none, none, []⟩ :=
  parse_page_lookups_amended.1 3 docPlain (by decide) (by decide)
    (by decide) (by decide) (by decide)

/-! ## Characterization of the pubdate pattern: completeness -/

/-- Every backtracking success comes from a candidate. -/
theorem firstSomeR_eq_some {α β : Type} {l : List α} {f : α → Option β}
    {b : β} (h : firstSomeR l f = some b) : ∃ a ∈ l, f a = some b := by
  induction l with
  | nil => cases h
  | cons x xs ih =>
    simp only [firstSomeR] at h
    cases hx : f x with
    | some v =>
      rw [hx] at h
      exact ⟨x, by simp, by rw [hx]; exact h⟩
    | none =>
      rw [hx] at h
      obtain ⟨a, ha, hfa⟩ := ih h
      exact ⟨a, by simp [ha], hfa⟩

/-- A successful minutes match begins with a one or two digit numeral. -/
theorem tryMinute_some {s : List Char} {m : Nat} (h : tryMinute s = some m) :
    ∃ minS post, s = minS ++ post ∧ Digit12 minS := by
  cases s with
  | nil => cases h
  | cons c1 tail =>
    cases tail with
    | nil =>
      by_cases hc : c1.isDigit
      · exact ⟨[c1], [], rfl, Or.inl ⟨c1, rfl, hc⟩⟩
      · rw [tryMinute, if_neg hc] at h; cases h
    | cons c2 rest =>
      by_cases h1 : c1.isDigit
      · by_cases h2 : c2.isDigit
        · exact ⟨[c1, c2], rest, rfl, Or.inr ⟨c1, c2, rfl, h1, h2⟩⟩
        · exact ⟨[c1], c2 :: rest, rfl, Or.inl ⟨c1, rfl, h1⟩⟩
      · rw [tryMinute, if_neg h1] at h; cases h

/-- A successful one-digit-hour continuation begins with a colon and the
minutes. -/
theorem hour1Cont_some {c1 : Char} {rest1 : List Char} {hm : Nat × Nat}
    (h : hour1Cont c1 rest1 = some hm) :
    ∃ minS post, rest1 = ':' :: (minS ++ post) ∧ Digit12 minS := by
  unfold hour1Cont at h
  split at h
  · next r =>
    cases hm0 : tryMinute r with
    | none => rw [hm0] at h; cases h
    | some m =>
      obtain ⟨minS, post, hr, hd⟩ := tryMinute_some hm0
      exact ⟨minS, post, by rw [hr], hd⟩
  · cases h

/-- A successful time match decomposes into hour, colon and minutes. -/
theorem tryTimeHere_some {s : List Char} {hm : Nat × Nat}
    (h : tryTimeHere s = some hm) :
    ∃ hS minS post, s = hS ++ ':' :: (minS ++ post)
      ∧ Digit12 hS ∧ Digit12 minS := by
  match s, h with
  | [], h => cases h
  | [c], h => cases h
  | c1 :: c2 :: rest2, h => ?_
  case _ =>
    simp only [tryTimeHere] at h
    by_cases h1 : c1.isDigit
    swap
    · rw [if_neg h1] at h; cases h
    rw [if_pos h1] at h
    have hcontra : hour1Cont c1 (c2 :: rest2) = some hm →
        c2.isDigit = true → False := by
      intro hc hd2
      obtain ⟨minS, post, hr, _⟩ := hour1Cont_some hc
      have hcolon : c2 = ':' := by
        have := congrArg (fun l => l.head?) hr
        simpa using this
      rw [hcolon] at hd2
      exact absurd hd2 (by decide)
    by_cases h2 : c2.isDigit
    · rw [if_pos h2] at h
      split at h
      · next rest3 =>
        cases hm0 : tryMinute rest3 with
        | none =>
          rw [hm0] at h
          exact absurd h2 (fun hd => hcontra h hd)
        | some m =>
          rw [hm0] at h
          cases h
          obtain ⟨minS, post, hr, hd⟩ := tryMinute_some hm0
          exact ⟨[c1, c2], minS, post, by rw [hr]; rfl,
            Or.inr ⟨c1, c2, rfl, h1, h2⟩, hd⟩
      · exact absurd h2 (fun hd => hcontra h hd)
    · rw [if_neg h2] at h
      obtain ⟨minS, post, hr, hd⟩ := hour1Cont_some h
      exact ⟨[c1], minS, post, by rw [hr]; rfl, Or.inl ⟨c1, rfl, h1⟩, hd⟩

/-- A successful lazy-gap search splits off a newline-free gap before a
time match. -/
theorem findTime_some {s : List Char} {hm : Nat × Nat}
    (h : findTime s = some hm) :
    ∃ gap rest, s = gap ++ rest ∧ ¬ gap.contains '\n'
      ∧ tryTimeHere rest = some hm := by
  induction s with
  | nil => cases h
  | cons c cs ih =>
    rw [findTime] at h
    cases ht : tryTimeHere (c :: cs) with
    | some v =>
      rw [ht] at h
      cases h
      exact ⟨[], c :: cs, rfl, by decide, ht⟩
    | none =>
      rw [ht] at h
      by_cases hnl : c = '\n'
      · rw [if_pos hnl] at h; cases h
      · rw [if_neg hnl] at h
        obtain ⟨gap, rest, hcs, hg, htt⟩ := ih h
        refine ⟨c :: gap, rest, by rw [List.cons_append, hcs], ?_, htt⟩
        simp only [List.contains_cons, Bool.or_eq_true]
        rintro (hb | hb)
        · exact hnl (eq_comm.mp (by simpa using hb))
        · exact hg hb

/-- A month candidate comes from a month-shaped prefix. -/
theorem monthCands_mem {s : List Char} {mo : Nat} {r : List Char}
    (h : (mo, r) ∈ monthCands s) : ∃ mS, s = mS ++ r ∧ MonthS mS := by
  rcases List.mem_append.mp h with h | h
  · cases s with
    | nil => cases h
    | cons c r2 =>
      simp only [monthCand1] at h
      by_cases hg : c.isDigit ∧ c ≠ '0'
      · rw [if_pos hg] at h
        have heq := List.mem_singleton.mp h
        rw [Prod.mk.injEq] at heq
        rw [← heq.2]
        exact ⟨[c], rfl, Or.inl ⟨c, rfl, hg.1, hg.2⟩⟩
      · rw [if_neg hg] at h; cases h
  · cases s with
    | nil => cases h
    | cons c1 t =>
      cases t with
      | nil => cases h
      | cons c2 r2 =>
        simp only [monthCand2] at h
        by_cases hg : c1 = '1' ∧ (c2 = '0' ∨ c2 = '1' ∨ c2 = '2')
        · rw [if_pos hg] at h
          have heq := List.mem_singleton.mp h
          rw [Prod.mk.injEq] at heq
          rw [← heq.2, hg.1]
          exact ⟨['1', c2], rfl, Or.inr ⟨c2, rfl, hg.2⟩⟩
        · rw [if_neg hg] at h; cases h

/-- A day candidate comes from a day-shaped prefix. -/
theorem dayCands_mem {s : List Char} {d : Nat} {r : List Char}
    (h : (d, r) ∈ dayCands s) : ∃ dS, s = dS ++ r ∧ DayS dS := by
  rcases List.mem_append.mp h with h | h
  · cases s with
    | nil => cases h
    | cons c1 t =>
      cases t with
      | nil => cases h
      | cons c2 r2 =>
        simp only [dayCand2] at h
        by_cases hg : (c1 = '1' ∨ c1 = '2' ∨ c1 = '3') ∧ c2.isDigit
        · rw [if_pos hg] at h
          have heq := List.mem_singleton.mp h
          rw [Prod.mk.injEq] at heq
          rw [← heq.2]
          exact ⟨[c1, c2], rfl, Or.inr ⟨c1, c2, rfl, hg.1, hg.2⟩⟩
        · rw [if_neg hg] at h; cases h
  · cases s with
    | nil => cases h
    | cons c r2 =>
      simp only [dayCand1] at h
      by_cases hg : c.isDigit = true
      · rw [if_pos hg] at h
        have heq := List.mem_singleton.mp h
        rw [Prod.mk.injEq] at heq
        rw [← heq.2]
        exact ⟨[c], rfl, Or.inl ⟨c, rfl, hg⟩⟩
      · rw [if_neg hg] at h; cases h

/-- A year candidate is either the position itself (no year) or a four
digit year with its slash cut off. -/
theorem yearCands_mem {s : List Char} {yc : Option Nat} {r : List Char}
    (h : (yc, r) ∈ yearCands s) :
    r = s ∨ (∃ a b c d, s = a :: b :: c :: d :: '/' :: r
      ∧ a.isDigit ∧ b.isDigit ∧ c.isDigit ∧ d.isDigit) := by
  rcases List.mem_append.mp h with h | h
  · match s, h with
    | a :: b :: c :: d :: e :: r2, h => ?_
    case _ =>
      simp only [yearCand1] at h
      by_cases hg : a.isDigit ∧ b.isDigit ∧ c.isDigit ∧ d.isDigit ∧ e = '/'
      · rw [if_pos hg] at h
        have heq := List.mem_singleton.mp h
        rw [Prod.mk.injEq] at heq
        rw [← heq.2, hg.2.2.2.2]
        exact Or.inr ⟨a, b, c, d, rfl, hg.1, hg.2.1, hg.2.2.1, hg.2.2.2.1⟩
      · rw [if_neg hg] at h; cases h
  · have heq := List.mem_singleton.mp h
    rw [Prod.mk.injEq] at heq
    exact Or.inl heq.2

/-- A successful month-day-time match realises the core fragment shape. -/
theorem matchMDT_some {u : List Char} {v : Nat × Nat × Nat × Nat}
    (h : matchMDT u = some v) : FragCore u := by
  obtain ⟨mc, hmc, h2⟩ := firstSomeR_eq_some h
  obtain ⟨mo, mr⟩ := mc
  obtain ⟨mS, hu, hms⟩ := monthCands_mem hmc
  split at h2
  · next s3 heq =>
    simp only at heq
    obtain ⟨dc, hdc, h3⟩ := firstSomeR_eq_some h2
    obtain ⟨dn, dr⟩ := dc
    obtain ⟨dS, hs3, hds⟩ := dayCands_mem hdc
    cases hft : findTime dr with
    | none => rw [hft] at h3; cases h3
    | some hm =>
      obtain ⟨gap, restT, hdr, hgap, htt⟩ := findTime_some hft
      obtain ⟨hS, minS, post, hrest, hhS, hminS⟩ := tryTimeHere_some htt
      refine ⟨mS, dS, gap, hS, minS, post, ?_, hms, hds, hgap, hhS, hminS⟩
      rw [hu, heq, hs3, hdr, hrest]
      simp [List.append_assoc]
  · cases h2

/-- A successful anchored match realises the optional-year shape. -/
theorem matchDateTimeAt_some {s : List Char} {g : DTG}
    (h : matchDateTimeAt s = some g) :
    (∃ y4 u, s = y4 ++ '/' :: u ∧ y4.length = 4
        ∧ (∀ c ∈ y4, c.isDigit) ∧ FragCore u)
      ∨ FragCore s := by
  obtain ⟨yc, hyc, h2⟩ := firstSomeR_eq_some h
  obtain ⟨yv, yr⟩ := yc
  cases hm : matchMDT yr with
  | none => rw [hm] at h2; cases h2
  | some v =>
    have hcore := matchMDT_some hm
    rcases yearCands_mem hyc with hr | ⟨a, b, c, d, hs, ha, hb, hc, hd⟩
    · exact Or.inr (hr ▸ hcore)
    · refine Or.inl ⟨[a, b, c, d], yr, by simpa using hs, rfl, ?_, hcore⟩
      intro x hx
      rcases List.mem_cons.mp hx with rfl | hx
      · exact ha
      rcases List.mem_cons.mp hx with rfl | hx
      · exact hb
      rcases List.mem_cons.mp hx with rfl | hx
      · exact hc
      rcases List.mem_cons.mp hx with rfl | hx
      · exact hd
      · cases hx

/-- Completeness of the search: any successful search position yields the
declarative fragment shape. -/
theorem regexSearch_some_fragSpec :
    ∀ {s : List Char} {g : DTG}, regexSearch s = some g → FragSpec s := by
  intro s
  induction s with
  | nil =>
    intro g h
    rw [show regexSearch [] = none from rfl] at h
    cases h
  | cons c cs ih =>
    intro g h
    rw [regexSearch] at h
    cases hm : matchDateTimeAt (c :: cs) with
    | some g2 =>
      rcases matchDateTimeAt_some hm with hy | hc
      · exact ⟨[], c :: cs, rfl, Or.inl hy⟩
      · exact ⟨[], c :: cs, rfl, Or.inr hc⟩
    | none =>
      rw [hm] at h
      obtain ⟨pre, rest, hcs, hsh⟩ := ih h
      exact ⟨c :: pre, rest, by rw [List.cons_append, hcs], hsh⟩

/-! ## Characterization of the pubdate pattern: soundness -/

/-- A candidate whose continuation succeeds makes the backtracking
succeed. -/
theorem firstSomeR_ne_none {α β : Type} {l : List α} {f : α → Option β}
    {a : α} (ha : a ∈ l) (hf : f a ≠ none) : firstSomeR l f ≠ none := by
  induction l with
  | nil => cases ha
  | cons x xs ih =>
    simp only [firstSomeR]
    cases hx : f x with
    | some v => simp
    | none =>
      rcases List.mem_cons.mp ha with h | h
      · subst h; exact absurd hx hf
      · exact ih h

/-- A minute-shaped head always matches. -/
theorem tryMinute_sound {minS post : List Char} (h : Digit12 minS) :
    tryMinute (minS ++ post) ≠ none := by
  rcases h with ⟨c, rfl, hc⟩ | ⟨c1, c2, rfl, h1, h2⟩
  · cases post with
    | nil => simp [tryMinute, hc]
    | cons p ps =>
      simp only [List.cons_append, List.nil_append, tryMinute, hc, if_true]
      split <;> simp
  · simp [tryMinute, h1, h2]

/-- An hour-colon-minute shaped head always matches. -/
theorem tryTimeHere_sound {hS minS post : List Char}
    (hh : Digit12 hS) (hm : Digit12 minS) :
    tryTimeHere (hS ++ ':' :: (minS ++ post)) ≠ none := by
  have hcolon : (':').isDigit = false := by decide
  rcases hh with ⟨c, rfl, hc⟩ | ⟨c1, c2, rfl, h1, h2⟩
  · simp only [List.cons_append, List.nil_append, tryTimeHere, hc, if_true,
      hcolon, Bool.false_eq_true, if_false, hour1Cont]
    intro hcon
    exact tryMinute_sound hm (Option.map_eq_none.mp hcon)
  · simp only [List.cons_append, List.nil_append, tryTimeHere, h1, h2,
      if_true]
    cases hm0 : tryMinute (minS ++ post) with
    | none => exact absurd hm0 (tryMinute_sound hm)
    | some m => simp

/-- The lazy gap scan succeeds whenever a newline-free gap leads to a
time match. -/
theorem findTime_sound {gap rest : List Char} (hg : ¬ gap.contains '\n')
    (ht : tryTimeHere rest ≠ none) : findTime (gap ++ rest) ≠ none := by
  induction gap with
  | nil =>
    simp only [List.nil_append]
    cases rest with
    | nil => exact absurd rfl ht
    | cons c cs =>
      rw [findTime]
      cases h : tryTimeHere (c :: cs) with
      | some v => simp
      | none => exact absurd h ht
  | cons c gp ih =>
    have hc2 : ¬ (c = '\n') ∧ ¬ gp.contains '\n' := by
      rw [List.contains_cons] at hg
      simp only [Bool.or_eq_true, beq_iff_eq, not_or] at hg
      exact ⟨fun hh => hg.1 hh.symm, hg.2⟩
    rw [List.cons_append, findTime]
    cases h : tryTimeHere (c :: (gp ++ rest)) with
    | some v => simp
    | none =>
      rw [if_neg hc2.1]
      exact ih hc2.2

/-- A month-shaped prefix produces a month candidate. -/
theorem monthCands_sound {mS : List Char} (r : List Char) (h : MonthS mS) :
    ∃ mo, (mo, r) ∈ monthCands (mS ++ r) := by
  rcases h with ⟨c, rfl, hc, h0⟩ | ⟨c, rfl, hcs⟩
  · refine ⟨dval c, List.mem_append.mpr (Or.inl ?_)⟩
    simp [monthCand1, hc, h0]
  · refine ⟨10 + dval c, List.mem_append.mpr (Or.inr ?_)⟩
    simp [monthCand2, hcs]

/-- A day-shaped prefix produces a day candidate. -/
theorem dayCands_sound {dS : List Char} (r : List Char) (h : DayS dS) :
    ∃ d, (d, r) ∈ dayCands (dS ++ r) := by
  rcases h with ⟨c, rfl, hc⟩ | ⟨c1, c2, rfl, h1, h2⟩
  · refine ⟨dval c, List.mem_append.mpr (Or.inr ?_)⟩
    simp [dayCand1, hc]
  · refine ⟨10 * dval c1 + dval c2, List.mem_append.mpr (Or.inl ?_)⟩
    simp [dayCand2, h1, h2]

/-- The no-year candidate is always present. -/
theorem yearCands_none_mem (s : List Char) : (none, s) ∈ yearCands s :=
  List.mem_append.mpr (Or.inr (List.mem_singleton.mpr rfl))

/-- A four-digit-year prefix produces a year candidate. -/
theorem yearCands_year_mem {a b c d : Char} (u : List Char)
    (ha : a.isDigit) (hb : b.isDigit) (hc : c.isDigit) (hd : d.isDigit) :
    (some (((dval a * 10 + dval b) * 10 + dval c) * 10 + dval d), u) ∈
      yearCands (a :: b :: c :: d :: '/' :: u) := by
  refine List.mem_append.mpr (Or.inl ?_)
  simp [yearCand1, ha, hb, hc, hd]

/-- The core fragment shape makes the month-day-time matcher succeed. -/
theorem matchMDT_sound {u : List Char} (h : FragCore u) :
    matchMDT u ≠ none := by
  obtain ⟨mS, dS, gap, hS, minS, post, hu, hms, hds, hgap, hhS, hminS⟩ := h
  subst hu
  obtain ⟨mo, hmo⟩ := monthCands_sound
    ('/' :: (dS ++ gap ++ hS ++ ':' :: (minS ++ post))) hms
  apply firstSomeR_ne_none hmo
  simp only
  have hrearr : dS ++ gap ++ hS ++ ':' :: (minS ++ post) =
      dS ++ (gap ++ (hS ++ ':' :: (minS ++ post))) := by
    simp [List.append_assoc]
  rw [hrearr]
  obtain ⟨d, hd⟩ := dayCands_sound (gap ++ (hS ++ ':' :: (minS ++ post))) hds
  apply firstSomeR_ne_none hd
  simp only
  have hft := @findTime_sound gap (hS ++ ':' :: (minS ++ post)) hgap
    (@tryTimeHere_sound hS minS post hhS hminS)
  cases h2 : findTime (gap ++ (hS ++ ':' :: (minS ++ post))) with
  | none => exact absurd h2 hft
  | some v => simp

/-- The optional-year shape makes the anchored matcher succeed. -/
theorem matchDateTimeAt_sound {s : List Char}
    (h : (∃ y4 u, s = y4 ++ '/' :: u ∧ y4.length = 4
        ∧ (∀ c ∈ y4, c.isDigit) ∧ FragCore u) ∨ FragCore s) :
    matchDateTimeAt s ≠ none := by
  rcases h with ⟨y4, u, hs, h4, hdig, hcore⟩ | hcore
  · rcases y4 with _ | ⟨a, _ | ⟨b, _ | ⟨c, _ | ⟨d, _ | _⟩⟩⟩⟩ <;>
      simp only [List.length_cons, List.length_nil] at h4 <;> try omega
    subst hs
    have mem := yearCands_year_mem u (hdig a (by simp)) (hdig b (by simp))
      (hdig c (by simp)) (hdig d (by simp))
    apply firstSomeR_ne_none (by simpa using mem)
    simp only
    cases h2 : matchMDT u with
    | none => exact absurd h2 (matchMDT_sound hcore)
    | some v => simp
  · apply firstSomeR_ne_none (yearCands_none_mem s)
    simp only
    cases h2 : matchMDT s with
    | none => exact absurd h2 (matchMDT_sound hcore)
    | some v => simp

/-- An anchored success propagates to the search. -/
theorem regexSearch_ne_none_of_matchAt {s : List Char}
    (h : matchDateTimeAt s ≠ none) : regexSearch s ≠ none := by
  cases s with
  | nil => exact h
  | cons c cs =>
    rw [regexSearch]
    cases hm : matchDateTimeAt (c :: cs) with
    | some g => simp
    | none => exact absurd hm h

/-- Soundness of the search: the declarative fragment shape guarantees a
match. -/
theorem regexSearch_ne_none {s : List Char} (h : FragSpec s) :
    regexSearch s ≠ none := by
  obtain ⟨pre, rest, rfl, hsh⟩ := h
  have hbase : regexSearch rest ≠ none :=
    regexSearch_ne_none_of_matchAt (matchDateTimeAt_sound hsh)
  clear hsh
  induction pre with
  | nil => simpa using hbase
  | cons c cs ih =>
    rw [List.cons_append, regexSearch]
    cases hm : matchDateTimeAt (c :: (cs ++ rest)) with
    | some g => simp
    | none => exact ih

/-- A resolved match never produces absence: the datetime constructor
yields a value or raises. -/
theorem mkDatetime_map_ne_none (y mo d h mi : Nat) :
    (mkDatetime y mo d h mi).map some ≠
      (Except.ok none : Except PyError (Option DateTime)) := by
  unfold mkDatetime
  split <;> simp [Except.map]

/-- Claim C5, amended: the resolver accepts one or two digit minutes
(time shape `[0-9]{1,2}:[0-9]{1,2}`) and a day of shape `[123]?[0-9]`
(the values 0 to 39); it yields absence exactly when the text has no
fragment of the shape: optional four-digit year with slash, month 1-12,
slash, day of that shape, a newline-free gap, then hour and minutes;
in-shape but invalid calendar values (for example day 0) raise an error
rather than yielding absence. -/
theorem parse_pubdate_shape_amended :
    (∀ (s : String) (ty : Option Nat) (n : Nat),
        parse_pubdate s ty n = .ok none ↔ ¬ FragSpec s.data)
      ∧ parse_pubdate "9/2(Wed) 8:3" (some 2020) 2020 =
          .ok (some ⟨2020, 9, 2, 8, 3, 540⟩)
      ∧ parse_pubdate "9/0(Wed) 8:32" (some 2020) 2020 =
          .error .valueError := by
  refine ⟨?_, by decide, by decide⟩
  intro s ty n
  constructor
  · intro h hshape
    have hne := regexSearch_ne_none hshape
    cases hr : regexSearch s.data with
    | none => exact hne hr
    | some g =>
      have hnn : parse_pubdate s ty n ≠ .ok none := by
        unfold parse_pubdate
        rw [hr]
        split
        · next heq => simp at heq
        · next g2 heq => exact mkDatetime_map_ne_none _ _ _ _ _
      exact hnn h
  · intro h
    cases hr : regexSearch s.data with
    | none => unfold parse_pubdate; rw [hr]
    | some g => exact absurd (regexSearch_some_fragSpec hr) h

end YahooByline
